import Mathlib

/-!
Shallow embedding of tools/build_vocabulary_tree.py (class VocabularyTreeBuilder)
and proofs of the specification's claims about it.

Conventions of the embedding:
* numpy uint8 arrays (binary descriptors) are `List Nat` (one entry per byte);
* python floats are modelled exactly as `ℚ` (coordinates, responses) or `ℝ`
  (logarithms, TF-IDF weights);
* python dicts with int keys are association lists `List (Nat × _)` in insertion
  order (a key occurs at most once, as in a dict);
* numpy `argsort`/`MiniBatchKMeans` (library calls) enter as explicit arguments,
  constrained in theorems by exactly their documented contracts.
-/

/-- Python `int(q)` on a float: truncation toward zero. -/
def pyInt (q : ℚ) : ℤ := if 0 ≤ q then ⌊q⌋ else -⌊-q⌋

/-- Number of 1 bits of `n` (the model of `bin(n).count('1')`), computed as the
binary digit sum with structural fuel (`n` itself bounds the number of digits). -/
def popCountAux : Nat → Nat → Nat
  | 0, _ => 0
  | fuel + 1, n => if n = 0 then 0 else n % 2 + popCountAux fuel (n / 2)

/-- Number of 1 bits of a natural number. -/
def popCount (n : Nat) : Nat := popCountAux n n

/-- Hamming distance of two byte strings: XOR byte-wise, then count set bits.
Models `bin(int.from_bytes(bytes(descriptor ^ word), byteorder='big')).count('1')`
(the popcount of the big-endian concatenation is the sum of per-byte popcounts). -/
def hamming_dist (descriptor word : List Nat) : Nat :=
  ((descriptor.zip word).map (fun p => popCount (Nat.xor p.1 p.2))).sum

/-- Index of the first minimal element of a list (the model of `np.argmin`). -/
def listArgmin : List Nat → Nat
  | [] => 0
  | [_] => 0
  | a :: b :: rest =>
    let j := listArgmin (b :: rest)
    if a ≤ (b :: rest).getD j 0 then 0 else j + 1

/-- `VocabularyTreeBuilder.quantize_descriptor`: Hamming distance to every
vocabulary word, then `np.argmin`. -/
def quantize_descriptor (descriptor : List Nat) (vocabulary : List (List Nat)) : Nat :=
  let hamming_dist := vocabulary.map (fun word => hamming_dist descriptor word)
  listArgmin hamming_dist

/-- A cv2 keypoint as consumed by `_select_best_features`: a position and a
response (strength). Coordinates and responses are exact rationals standing in
for Python floats. -/
structure KeyPt where
  x : ℚ
  y : ℚ
  response : ℚ
deriving DecidableEq

/-- Grid cell of a keypoint in the 4×4 spatial grid, as computed by
`_select_best_features`: `cell_x = min(int(x / cell_w), 3)`,
`cell_y = min(int(y / cell_h), 3)`, index pair ordered `(cell_y, cell_x)`. -/
def cellOf (imgH imgW : ℚ) (kp : KeyPt) : ℤ × ℤ :=
  (min (pyInt (kp.y / (imgH / 4))) 3, min (pyInt (kp.x / (imgW / 4))) 3)

/-- First pass of `_select_best_features`: walk the response-sorted index list,
admit an index when its grid cell is below the per-cell quota, and break once
the global budget is reached. -/
def firstPass (budget quota : Nat) (kps : List KeyPt) (imgH imgW : ℚ) :
    List Nat → List Nat → ((ℤ × ℤ) → Nat) → List Nat
  | [], sel, _ => sel
  | idx :: rest, sel, cell_counts =>
    let c := cellOf imgH imgW (kps.getD idx ⟨0, 0, 0⟩)
    if cell_counts c < quota then
      (if budget ≤ sel.length + 1 then sel ++ [idx]
       else firstPass budget quota kps imgH imgW rest (sel ++ [idx])
         (fun c2 => if c2 = c then cell_counts c2 + 1 else cell_counts c2))
    else firstPass budget quota kps imgH imgW rest sel cell_counts

/-- Second pass of `_select_best_features`: fill remaining slots with the
strongest not-yet-selected features, breaking at the budget. -/
def secondPass (budget : Nat) : List Nat → List Nat → List Nat
  | [], sel => sel
  | idx :: rest, sel =>
    if idx ∈ sel then secondPass budget rest sel
    else if budget ≤ sel.length + 1 then sel ++ [idx]
    else secondPass budget rest (sel ++ [idx])

/-- The selected index list of `_select_best_features` (both passes), given the
response-sorted index list produced by `np.argsort(-responses)`. The per-cell
quota is `max_features // (grid_size * grid_size)` with `grid_size = 4`. -/
def selectIndices (budget : Nat) (kps : List KeyPt) (imgH imgW : ℚ)
    (sorted_indices : List Nat) : List Nat :=
  let features_per_cell := budget / (4 * 4)
  let s1 := firstPass budget features_per_cell kps imgH imgW sorted_indices [] (fun _ => 0)
  if s1.length < budget then secondPass budget sorted_indices s1 else s1

/-- `VocabularyTreeBuilder._select_best_features`. The parallel arrays
`keypoints`, `descriptors`, `kps` are indexed by the selected index list.
`sorted_indices` stands for `np.argsort(-responses)`: some permutation of
`range n` along which responses are non-increasing (argsort's tie order is
unspecified, so it enters as an argument constrained in the theorems). -/
def select_best_features (max_features_per_target : Nat) (keypoints : List (ℚ × ℚ))
    (descriptors : List (List Nat)) (kps : List KeyPt) (imgH imgW : ℚ)
    (sorted_indices : List Nat) : List (ℚ × ℚ) × List (List Nat) × List KeyPt :=
  if keypoints.length ≤ max_features_per_target then (keypoints, descriptors, kps)
  else
    let sel := selectIndices max_features_per_target kps imgH imgW sorted_indices
    (sel.map (fun i => keypoints.getD i (0, 0)),
     sel.map (fun i => descriptors.getD i []),
     sel.map (fun i => kps.getD i ⟨0, 0, 0⟩))

/-- Number of selected indices whose keypoint falls in grid cell `c`. -/
def countCell (kps : List KeyPt) (imgH imgW : ℚ) (sel : List Nat) (c : ℤ × ℤ) : Nat :=
  sel.countP (fun i => decide (cellOf imgH imgW (kps.getD i ⟨0, 0, 0⟩) = c))

/-- The sorted index list is non-increasing in response (the contract of
`np.argsort(-responses)`). -/
def respDescending (kps : List KeyPt) (sorted_indices : List Nat) : Prop :=
  sorted_indices.Pairwise
    (fun i j => (kps.getD j ⟨0, 0, 0⟩).response ≤ (kps.getD i ⟨0, 0, 0⟩).response)

/-- One byte expanded into its 8 bits, most significant first
(`np.unpackbits` bit order), as 0/1 rationals. -/
def unpackByte (b : Nat) : List ℚ :=
  (List.range 8).map (fun i => ((b / 2 ^ (7 - i)) % 2 : Nat))

/-- `np.unpackbits(..., axis=1)` on one descriptor row, cast to float. -/
def unpackbits (descriptor : List Nat) : List ℚ :=
  (descriptor.map unpackByte).flatten

/-- The bit list of one byte packed back into a byte, most significant first;
a short final chunk is padded with zeros on the right (`np.packbits`). -/
def byteOfBits (bits : List Bool) : Nat :=
  (bits ++ List.replicate (8 - bits.length) false).foldl
    (fun acc b => 2 * acc + (if b then 1 else 0)) 0

/-- Split a bit list into chunks of 8 bits. -/
def chunksOf8 (l : List Bool) : List (List Bool) :=
  if l = [] then [] else l.take 8 :: chunksOf8 (l.drop 8)
termination_by l.length
decreasing_by
  simp only [List.length_drop]
  have : l.length ≠ 0 := by simpa [List.length_eq_zero] using (by assumption : ¬ l = [])
  omega

/-- `np.packbits(..., axis=1)` on one row of thresholded bits. -/
def packbits (bits : List Bool) : List Nat :=
  (chunksOf8 bits).map byteOfBits

/-- `VocabularyTreeBuilder.build_vocabulary`. The MiniBatchKMeans fit enters as
the argument `kmeansFit` (cluster count and data in, cluster centers out);
theorems constrain it only by sklearn's contract that fitting `k` clusters on at
least `k` samples yields exactly `k` centers. Returns the (possibly reduced)
vocabulary size together with the binarized vocabulary. -/
def build_vocabulary (kmeansFit : Nat → List (List ℚ) → List (List ℚ))
    (vocabulary_size : Nat) (all_descriptors : List (List Nat)) :
    Nat × List (List Nat) :=
  let V := if all_descriptors.length < vocabulary_size then all_descriptors.length
           else vocabulary_size
  let desc_float := all_descriptors.map unpackbits
  let centers := kmeansFit V desc_float
  let centers_binary := centers.map (fun c => packbits (c.map (fun v => decide ((0.5 : ℚ) < v))))
  (V, centers_binary)

/-- One step of `descriptors_to_bow`: `bow[word_id] = bow.get(word_id, 0) + 1`
on a dict kept as an insertion-ordered association list. -/
def bowInsert (bow : List (Nat × Nat)) (word_id : Nat) : List (Nat × Nat) :=
  if bow.any (fun p => p.1 == word_id) then
    bow.map (fun p => if p.1 = word_id then (p.1, p.2 + 1) else p)
  else bow ++ [(word_id, 1)]

/-- `VocabularyTreeBuilder.descriptors_to_bow`. -/
def descriptors_to_bow (vocabulary : List (List Nat)) (descriptors : List (List Nat)) :
    List (Nat × Nat) :=
  descriptors.foldl (fun bow desc => bowInsert bow (quantize_descriptor desc vocabulary)) []

/-- Total of the counts stored in a bag-of-words histogram. -/
def sumCounts (bow : List (Nat × Nat)) : Nat := (bow.map Prod.snd).sum

/-- `df[word_id] += 1`. -/
def dfUpdate (df : Nat → Nat) (word_id : Nat) : Nat → Nat :=
  fun w => if w = word_id then df w + 1 else df w

/-- The document-frequency table built by `VocabularyTreeBuilder.compute_idf`:
for every target histogram, every key increments its document frequency once. -/
def compute_df (target_bow_vectors : List (List (Nat × Nat))) : Nat → Nat :=
  target_bow_vectors.foldl (fun df bow => bow.foldl (fun d p => dfUpdate d p.1) df)
    (fun _ => 0)

/-- The IDF weights stored by `VocabularyTreeBuilder.compute_idf`:
`np.log((N + 1) / (df + 1))`. -/
noncomputable def compute_idf (target_bow_vectors : List (List (Nat × Nat))) : Nat → ℝ :=
  fun w =>
    Real.log (((target_bow_vectors.length : ℝ) + 1) / ((compute_df target_bow_vectors w : ℝ) + 1))

/-- `VocabularyTreeBuilder.compute_tfidf_vector`: each histogram entry
`(word_id, count)` becomes `(word_id, (count / num_features) * idf[word_id])`.
Polymorphic in the scalar field; the pipeline instantiates it at `ℝ`. -/
def compute_tfidf_vector {α : Type} [DivisionRing α] (idf_weights : Nat → α)
    (bow : List (Nat × Nat)) (num_features : Nat) : List (Nat × α) :=
  bow.map (fun p => (p.1, ((p.2 : α) / (num_features : α)) * idf_weights p.1))

/-- The outcome of `cv2.imread` plus feature extraction for one image file:
either the load failed, or it yielded a (possibly empty) descriptor list. -/
inductive ImageInput where
  | loadFail : String → ImageInput
  | loaded : String → List (List Nat) → ImageInput
deriving DecidableEq

/-- Whether an image input is a failed load. -/
def isLoadFail : ImageInput → Bool
  | ImageInput.loadFail _ => true
  | ImageInput.loaded _ _ => false

/-- The per-target record retained by `process_targets` (feature phase). -/
structure TargetRec where
  id : String
  descriptors : List (List Nat)
deriving DecidableEq

/-- The extraction loop of `VocabularyTreeBuilder.process_targets` (step 1):
`extract_features` raises `ValueError` on a failed load (modelled as
`Except.error`, uncaught by the loop); an image with zero features is skipped
with a warning; any other image contributes a target record. -/
def extractAll : List ImageInput → Except String (List TargetRec)
  | [] => Except.ok []
  | ImageInput.loadFail name :: _ => Except.error ("Failed to load image: " ++ name)
  | ImageInput.loaded name descs :: rest =>
    match extractAll rest with
    | Except.error e => Except.error e
    | Except.ok ts => Except.ok (if descs.isEmpty then ts else ⟨name, descs⟩ :: ts)

/-- `VocabularyTreeBuilder.process_targets`, feature-extraction phase plus the
`if len(all_descriptors) == 0: raise ValueError(...)` guard. Steps 2–5
(vocabulary, BoW, IDF, TF-IDF) consume the returned records and are modelled by
the functions above; they introduce no further abort condition. -/
def process_targets (images : List ImageInput) : Except String (List TargetRec) :=
  match extractAll images with
  | Except.error e => Except.error e
  | Except.ok ts =>
    if ts.isEmpty then Except.error "No features extracted from any target images"
    else Except.ok ts

/-- The target records of the images that load and have at least one feature. -/
def usableTargets (images : List ImageInput) : List TargetRec :=
  images.filterMap (fun i => match i with
    | ImageInput.loadFail _ => none
    | ImageInput.loaded name descs => if descs.isEmpty then none else some ⟨name, descs⟩)

theorem popCountAux_pos (fuel n : Nat) (hn : n ≠ 0) (hle : n ≤ fuel) :
    0 < popCountAux fuel n := by
  induction fuel generalizing n with
  | zero => omega
  | succ f ih =>
    simp only [popCountAux, hn, if_false]
    rcases Nat.eq_zero_or_pos (n % 2) with h2 | h2
    · have hne : n / 2 ≠ 0 := by omega
      have : n / 2 ≤ f := by omega
      have := ih (n / 2) hne this
      omega
    · omega

theorem popCount_eq_zero {n : Nat} (h : popCount n = 0) : n = 0 := by
  by_contra hne
  have := popCountAux_pos n n hne le_rfl
  simp [popCount] at h
  omega

theorem popCount_zero : popCount 0 = 0 := rfl

theorem mem_zip_self {p : Nat × Nat} {d : List Nat} (hp : p ∈ d.zip d) : p.1 = p.2 := by
  induction d with
  | nil => simp at hp
  | cons a t ih =>
    simp only [List.zip_cons_cons, List.mem_cons] at hp
    rcases hp with h | h
    · simp [h]
    · exact ih h

theorem hamming_dist_self (d : List Nat) : hamming_dist d d = 0 := by
  simp only [hamming_dist]
  rw [List.sum_eq_zero_iff]
  intro x hx
  simp only [List.mem_map] at hx
  obtain ⟨p, hp, hx⟩ := hx
  rw [← hx, mem_zip_self hp, show Nat.xor p.2 p.2 = 0 from Nat.xor_self p.2]
  exact popCount_zero

theorem hamming_dist_eq_zero {d w : List Nat} (hlen : d.length = w.length)
    (h : hamming_dist d w = 0) : d = w := by
  induction d generalizing w with
  | nil => cases w with
    | nil => rfl
    | cons b t => simp at hlen
  | cons a t ih =>
    cases w with
    | nil => simp at hlen
    | cons b s =>
      simp only [hamming_dist, List.zip_cons_cons, List.map_cons, List.sum_cons] at h
      have h1 : popCount (Nat.xor a b) = 0 := by omega
      have h2 : hamming_dist t s = 0 := by
        simp only [hamming_dist]; omega
      have hab : a = b := Nat.xor_eq_zero.mp (popCount_eq_zero h1)
      have hts : t = s := ih (by simpa using hlen) h2
      rw [hab, hts]

theorem listArgmin_lt (l : List Nat) (h : l ≠ []) : listArgmin l < l.length := by
  induction l with
  | nil => simp at h
  | cons a t ih =>
    cases t with
    | nil => simp [listArgmin]
    | cons b rest =>
      simp only [listArgmin]
      split
      · simp
      · have := ih (by simp)
        simpa [Nat.succ_lt_succ_iff] using this

theorem listArgmin_min (l : List Nat) (j : Nat) (hj : j < l.length) :
    l.getD (listArgmin l) 0 ≤ l.getD j 0 := by
  induction l generalizing j with
  | nil => simp at hj
  | cons a t ih =>
    cases t with
    | nil =>
      cases j with
      | zero => simp [listArgmin]
      | succ i => simp at hj
    | cons b rest =>
      simp only [listArgmin]
      split
      case isTrue hle =>
        cases j with
        | zero => simp
        | succ i =>
          have hi : i < (b :: rest).length := by simpa [Nat.succ_lt_succ_iff] using hj
          have := ih i hi
          calc (a :: b :: rest).getD 0 0 = a := rfl
            _ ≤ (b :: rest).getD (listArgmin (b :: rest)) 0 := hle
            _ ≤ (b :: rest).getD i 0 := this
            _ = (a :: b :: rest).getD (i + 1) 0 := rfl
      case isFalse hgt =>
        push_neg at hgt
        cases j with
        | zero =>
          show (b :: rest).getD (listArgmin (b :: rest)) 0 ≤ a
          exact le_of_lt hgt
        | succ i =>
          have hi : i < (b :: rest).length := by simpa [Nat.succ_lt_succ_iff] using hj
          exact ih i hi

theorem listArgmin_first (l : List Nat) (j : Nat) (hj : j < listArgmin l) :
    l.getD (listArgmin l) 0 < l.getD j 0 := by
  induction l generalizing j with
  | nil => simp [listArgmin] at hj
  | cons a t ih =>
    cases t with
    | nil => simp [listArgmin] at hj
    | cons b rest =>
      simp only [listArgmin] at hj ⊢
      split
      case isTrue hle => simp_all
      case isFalse hgt =>
        push_neg at hgt
        rw [if_neg (by push_neg; exact hgt)] at hj
        cases j with
        | zero => exact hgt
        | succ i =>
          have : i < listArgmin (b :: rest) := by omega
          exact ih i this

theorem getD_map_lt {α β : Type} (l : List α) (f : α → β) (i : Nat) (dA : α) (dB : β)
    (h : i < l.length) : (l.map f).getD i dB = f (l.getD i dA) := by
  rw [List.getD_eq_getElem _ _ (by simpa using h), List.getD_eq_getElem _ _ h]
  simp

theorem quantize_spec (descriptor : List Nat) (vocabulary : List (List Nat))
    (hne : vocabulary ≠ []) :
    quantize_descriptor descriptor vocabulary < vocabulary.length ∧
    (∀ j, j < vocabulary.length →
      hamming_dist descriptor (vocabulary.getD (quantize_descriptor descriptor vocabulary) []) ≤
        hamming_dist descriptor (vocabulary.getD j [])) ∧
    (∀ j, j < quantize_descriptor descriptor vocabulary →
      hamming_dist descriptor (vocabulary.getD (quantize_descriptor descriptor vocabulary) []) <
        hamming_dist descriptor (vocabulary.getD j [])) := by
  have hmapne : vocabulary.map (fun word => hamming_dist descriptor word) ≠ [] := by
    simpa using hne
  have hlen : (vocabulary.map (fun word => hamming_dist descriptor word)).length =
      vocabulary.length := by simp
  have hlt : quantize_descriptor descriptor vocabulary < vocabulary.length := by
    have := listArgmin_lt _ hmapne
    simpa [quantize_descriptor, hlen] using this
  have hq : quantize_descriptor descriptor vocabulary =
      listArgmin (vocabulary.map (fun word => hamming_dist descriptor word)) := rfl
  have hlt2 : listArgmin (vocabulary.map (fun word => hamming_dist descriptor word)) <
      vocabulary.length := hq ▸ hlt
  refine ⟨hlt, ?_, ?_⟩
  · intro j hj
    have := listArgmin_min (vocabulary.map (fun word => hamming_dist descriptor word)) j
      (by simpa [hlen] using hj)
    rw [getD_map_lt _ _ _ [] _ hlt2, getD_map_lt _ _ _ [] _ hj] at this
    rw [hq]
    exact this
  · intro j hj
    have hjlt : j < vocabulary.length := lt_trans hj hlt
    have := listArgmin_first (vocabulary.map (fun word => hamming_dist descriptor word)) j
      (by simpa [quantize_descriptor] using hj)
    rw [getD_map_lt _ _ _ [] _ hlt2, getD_map_lt _ _ _ [] _ hjlt] at this
    rw [hq]
    exact this

/-- C4: for every descriptor and every non-empty vocabulary,
`quantize_descriptor` returns an in-range word-id whose centroid is at minimal
Hamming distance from the descriptor, and among all minimizers it is the lowest
index (every strictly smaller index is at strictly larger distance). -/
theorem c4_quantize_nearest (descriptor : List Nat) (vocabulary : List (List Nat))
    (hne : vocabulary ≠ []) :
    quantize_descriptor descriptor vocabulary < vocabulary.length ∧
    (∀ j, j < vocabulary.length →
      hamming_dist descriptor (vocabulary.getD (quantize_descriptor descriptor vocabulary) []) ≤
        hamming_dist descriptor (vocabulary.getD j [])) ∧
    (∀ j, j < quantize_descriptor descriptor vocabulary →
      hamming_dist descriptor (vocabulary.getD (quantize_descriptor descriptor vocabulary) []) <
        hamming_dist descriptor (vocabulary.getD j [])) :=
  quantize_spec descriptor vocabulary hne

theorem c4_witness :
    (([[0], [1]] : List (List Nat)) ≠ []) ∧
    (quantize_descriptor [1] [[0], [1]] < ([[0], [1]] : List (List Nat)).length ∧
    (∀ j, j < ([[0], [1]] : List (List Nat)).length →
      hamming_dist [1] (([[0], [1]] : List (List Nat)).getD (quantize_descriptor [1] [[0], [1]]) []) ≤
        hamming_dist [1] (([[0], [1]] : List (List Nat)).getD j [])) ∧
    (∀ j, j < quantize_descriptor [1] [[0], [1]] →
      hamming_dist [1] (([[0], [1]] : List (List Nat)).getD (quantize_descriptor [1] [[0], [1]]) []) <
        hamming_dist [1] (([[0], [1]] : List (List Nat)).getD j []))) :=
  ⟨by decide, c4_quantize_nearest [1] [[0], [1]] (by decide)⟩

/-- C9 counterexample: the claim fails on a vocabulary with duplicate centroids.
Here centroid 1 equals `[0]`, yet quantizing it returns word-id 0, not 1
(`np.argmin` takes the first index at the minimal distance). -/
theorem c9_counterexample :
    (([[0], [0]] : List (List Nat)).getD 1 [] = [0]) ∧
    quantize_descriptor [0] [[0], [0]] ≠ 1 := by decide

/-- C9 (amended): for every vocabulary of pairwise-distinct centroids of equal
byte length (as produced for fixed-width descriptors), quantizing the centroid
at index `i` against that vocabulary returns `i`. -/
theorem c9_centroid_amended (vocabulary : List (List Nat)) (i : Nat)
    (hi : i < vocabulary.length) (hnodup : vocabulary.Nodup)
    (hlen : ∀ w ∈ vocabulary, w.length = (vocabulary.getD i []).length) :
    quantize_descriptor (vocabulary.getD i []) vocabulary = i := by
  set d := vocabulary.getD i [] with hd
  have hne : vocabulary ≠ [] := by
    intro h; rw [h] at hi; simp at hi
  obtain ⟨hlt, hmin, -⟩ := quantize_spec d vocabulary hne
  have hdi : hamming_dist d (vocabulary.getD i []) = 0 := by
    rw [← hd]; exact hamming_dist_self d
  have h0 : hamming_dist d (vocabulary.getD (quantize_descriptor d vocabulary) []) = 0 :=
    Nat.le_zero.mp (hdi ▸ hmin i hi)
  have hmem : vocabulary.getD (quantize_descriptor d vocabulary) [] ∈ vocabulary := by
    rw [List.getD_eq_getElem _ _ hlt]
    exact List.getElem_mem hlt
  have hlw : d.length = (vocabulary.getD (quantize_descriptor d vocabulary) []).length :=
    (hlen _ hmem).symm
  have heq : d = vocabulary.getD (quantize_descriptor d vocabulary) [] :=
    hamming_dist_eq_zero hlw h0
  have hge : vocabulary[quantize_descriptor d vocabulary] = vocabulary[i] := by
    rw [← List.getD_eq_getElem _ [] hlt, ← List.getD_eq_getElem _ [] hi, ← heq, hd]
  exact (List.Nodup.getElem_inj_iff hnodup).mp hge

theorem c9_witness :
    ((0 : Nat) < ([[0], [1]] : List (List Nat)).length ∧
     ([[0], [1]] : List (List Nat)).Nodup ∧
     (∀ w ∈ ([[0], [1]] : List (List Nat)), w.length = (([[0], [1]] : List (List Nat)).getD 0 []).length)) ∧
    quantize_descriptor (([[0], [1]] : List (List Nat)).getD 0 []) [[0], [1]] = 0 :=
  ⟨⟨by decide, by decide, by decide⟩,
   c9_centroid_amended [[0], [1]] 0 (by decide) (by decide) (by decide)⟩


theorem df_fold_bow (bow : List (Nat × Nat)) (d : Nat → Nat) (w : Nat) :
    (bow.foldl (fun d p => dfUpdate d p.1) d) w = d w + bow.countP (fun p => p.1 == w) := by
  induction bow generalizing d with
  | nil => simp
  | cons p rest ih =>
    simp only [List.foldl_cons, List.countP_cons, ih, dfUpdate]
    by_cases h : p.1 = w
    · simp [h, beq_iff_eq]
      omega
    · have hbeq : (p.1 == w) = false := by simpa using h
      have hne : ¬ w = p.1 := fun hw => h hw.symm
      simp [hbeq, hne]

theorem compute_df_eq (target_bow_vectors : List (List (Nat × Nat))) (w : Nat) :
    compute_df target_bow_vectors w =
      (target_bow_vectors.map (fun bow => bow.countP (fun p => p.1 == w))).sum := by
  have key : ∀ (bows : List (List (Nat × Nat))) (d : Nat → Nat),
      (bows.foldl (fun df bow => bow.foldl (fun d p => dfUpdate d p.1) df) d) w =
        d w + (bows.map (fun bow => bow.countP (fun p => p.1 == w))).sum := by
    intro bows
    induction bows with
    | nil => simp
    | cons bow rest ih =>
      intro d
      simp only [List.foldl_cons, List.map_cons, List.sum_cons, ih, df_fold_bow]
      omega
  simpa using key target_bow_vectors (fun _ => 0)

theorem countP_keys_of_nodup (bow : List (Nat × Nat)) (w : Nat)
    (h : (bow.map Prod.fst).Nodup) :
    bow.countP (fun p => p.1 == w) = if w ∈ bow.map Prod.fst then 1 else 0 := by
  have hmap : bow.countP (fun p => p.1 == w) = (bow.map Prod.fst).countP (fun x => x == w) := by
    rw [List.countP_map]
    rfl
  rw [hmap]
  by_cases hw : w ∈ bow.map Prod.fst
  · rw [if_pos hw]
    have := List.count_eq_one_of_mem h hw
    simpa [List.count] using this
  · rw [if_neg hw]
    have := List.count_eq_zero_of_not_mem hw
    simpa [List.count] using this

theorem sum_ite_eq_countP {α : Type} (l : List α) (p : α → Bool) :
    (l.map (fun x => if p x then 1 else 0)).sum = l.countP p := by
  induction l with
  | nil => simp
  | cons a rest ih =>
    simp only [List.map_cons, List.sum_cons, List.countP_cons, ih]
    by_cases h : p a
    · simp [h]
      omega
    · simp [h]

theorem idf_one_target_word0 : compute_idf [[(0, 1)]] 0 = 0 := by
  have hdf : compute_df [[(0, 1)]] 0 = 1 := by decide
  unfold compute_idf
  rw [hdf]
  have h2 : ((([[(0, 1)]] : List (List (Nat × Nat))).length : ℝ) + 1) /
      (((1 : Nat) : ℝ) + 1) = 1 := by
    norm_num
  rw [h2, Real.log_one]

/-- C1 counterexample: the claim's parenthetical "idf[w] may be negative when
df[w] is close to N" is false. At the extreme `df[w] = N` (here a single target
whose histogram contains word 0, so `N = 1`, `df[0] = 1`) the stored weight is
`ln(2/2) = 0`, not negative — and by `c1_df_idf_amended` it is never negative. -/
theorem c1_counterexample :
    compute_df [[(0, 1)]] 0 = 1 ∧
    compute_idf [[(0, 1)]] 0 = 0 ∧ ¬ compute_idf [[(0, 1)]] 0 < 0 :=
  ⟨by decide, idf_one_target_word0, by rw [idf_one_target_word0]; norm_num⟩

/-- C1 (amended): for every list of target histograms (keys unique within each,
as in a Python dict) and every word-id `w`, the document frequency computed by
`compute_idf` equals the number of histograms whose key set contains `w`, so
`0 ≤ df[w] ≤ N`; the stored IDF weight is exactly `ln((N+1)/(df[w]+1))` with no
clamping at zero — and since `df[w] ≤ N` this weight is always ≥ 0 (it equals 0
when `df[w] = N`, never negative). -/
theorem c1_df_idf_amended (target_bow_vectors : List (List (Nat × Nat)))
    (hkeys : ∀ bow ∈ target_bow_vectors, (bow.map Prod.fst).Nodup) (w : Nat) :
    compute_df target_bow_vectors w =
      target_bow_vectors.countP (fun bow => decide (w ∈ bow.map Prod.fst)) ∧
    compute_df target_bow_vectors w ≤ target_bow_vectors.length ∧
    compute_idf target_bow_vectors w =
      Real.log (((target_bow_vectors.length : ℝ) + 1) /
        ((compute_df target_bow_vectors w : ℝ) + 1)) ∧
    0 ≤ compute_idf target_bow_vectors w := by
  have hchar : compute_df target_bow_vectors w =
      target_bow_vectors.countP (fun bow => decide (w ∈ bow.map Prod.fst)) := by
    rw [compute_df_eq]
    have : target_bow_vectors.map (fun bow => bow.countP (fun p => p.1 == w)) =
        target_bow_vectors.map (fun bow => if decide (w ∈ bow.map Prod.fst) then 1 else 0) := by
      apply List.map_congr_left
      intro bow hbow
      rw [countP_keys_of_nodup bow w (hkeys bow hbow)]
      by_cases hw : w ∈ bow.map Prod.fst
      · simp only [if_pos hw, decide_eq_true_eq, hw, if_true]
      · simp only [if_neg hw, decide_eq_true_eq, hw, if_false]
    rw [this, sum_ite_eq_countP]
  have hle : compute_df target_bow_vectors w ≤ target_bow_vectors.length := by
    rw [hchar]
    exact List.countP_le_length _
  refine ⟨hchar, hle, rfl, ?_⟩
  apply Real.log_nonneg
  rw [le_div_iff₀ (by positivity)]
  have : (compute_df target_bow_vectors w : ℝ) ≤ (target_bow_vectors.length : ℝ) := by
    exact_mod_cast hle
  linarith

theorem c1_witness :
    (∀ bow ∈ ([[(0, 1)], [(1, 2)]] : List (List (Nat × Nat))), (bow.map Prod.fst).Nodup) ∧
    (compute_df [[(0, 1)], [(1, 2)]] 0 =
      ([[(0, 1)], [(1, 2)]] : List (List (Nat × Nat))).countP
        (fun bow => decide (0 ∈ bow.map Prod.fst)) ∧
    compute_df [[(0, 1)], [(1, 2)]] 0 ≤ ([[(0, 1)], [(1, 2)]] : List (List (Nat × Nat))).length ∧
    compute_idf [[(0, 1)], [(1, 2)]] 0 =
      Real.log (((([[(0, 1)], [(1, 2)]] : List (List (Nat × Nat))).length : ℝ) + 1) /
        ((compute_df [[(0, 1)], [(1, 2)]] 0 : ℝ) + 1)) ∧
    0 ≤ compute_idf [[(0, 1)], [(1, 2)]] 0) :=
  ⟨by decide, c1_df_idf_amended [[(0, 1)], [(1, 2)]] (by decide) 0⟩

theorem bowInsert_keys_update (bow : List (Nat × Nat)) (w : Nat) :
    (bow.map (fun p => if p.1 = w then (p.1, p.2 + 1) else p)).map Prod.fst =
      bow.map Prod.fst := by
  rw [List.map_map]
  apply List.map_congr_left
  intro p _
  by_cases h : p.1 = w <;> simp [h]

theorem bowInsert_keys_nodup {bow : List (Nat × Nat)} {w : Nat}
    (h : (bow.map Prod.fst).Nodup) : ((bowInsert bow w).map Prod.fst).Nodup := by
  unfold bowInsert
  split
  · rwa [bowInsert_keys_update]
  · rename_i hany
    have hnot : w ∉ bow.map Prod.fst := by
      intro hmem
      simp only [List.mem_map] at hmem
      obtain ⟨p, hp, hpw⟩ := hmem
      have : bow.any (fun p => p.1 == w) = true := by
        rw [List.any_eq_true]
        exact ⟨p, hp, by simpa using hpw⟩
      exact hany this
    simp only [List.map_append, List.map_cons, List.map_nil]
    rw [List.nodup_append]
    exact ⟨h, List.nodup_singleton w, by simpa using hnot⟩

theorem sum_update (bow : List (Nat × Nat)) (w : Nat) :
    ((bow.map (fun p => if p.1 = w then (p.1, p.2 + 1) else p)).map Prod.snd).sum =
      (bow.map Prod.snd).sum + bow.countP (fun p => p.1 == w) := by
  induction bow with
  | nil => simp
  | cons p rest ih =>
    simp only [List.map_cons, List.sum_cons, List.countP_cons, ih]
    by_cases h : p.1 = w
    · simp [h]
      omega
    · simp [h]
      omega

theorem bowInsert_sum {bow : List (Nat × Nat)} {w : Nat}
    (h : (bow.map Prod.fst).Nodup) : sumCounts (bowInsert bow w) = sumCounts bow + 1 := by
  unfold bowInsert sumCounts
  split
  · rename_i hany
    rw [sum_update]
    have hmem : w ∈ bow.map Prod.fst := by
      rw [List.any_eq_true] at hany
      obtain ⟨p, hp, hpw⟩ := hany
      exact List.mem_map.mpr ⟨p, hp, by simpa using hpw⟩
    rw [countP_keys_of_nodup bow w h, if_pos hmem]
  · simp

theorem bowInsert_pos {bow : List (Nat × Nat)} {w : Nat}
    (h : ∀ p ∈ bow, 0 < p.2) : ∀ p ∈ bowInsert bow w, 0 < p.2 := by
  unfold bowInsert
  split
  · intro p hp
    simp only [List.mem_map] at hp
    obtain ⟨q, hq, hqp⟩ := hp
    by_cases hqw : q.1 = w
    · rw [if_pos hqw] at hqp
      rw [← hqp]
      simp
    · rw [if_neg hqw] at hqp
      rw [← hqp]
      exact h q hq
  · intro p hp
    rw [List.mem_append] at hp
    rcases hp with hp | hp
    · exact h p hp
    · simp only [List.mem_singleton] at hp
      rw [hp]
      simp

theorem bow_fold_inv (vocabulary : List (List Nat)) (descriptors : List (List Nat))
    (bow : List (Nat × Nat)) (h : (bow.map Prod.fst).Nodup) :
    (((descriptors.foldl (fun bow desc => bowInsert bow (quantize_descriptor desc vocabulary))
        bow).map Prod.fst).Nodup) ∧
    sumCounts (descriptors.foldl
        (fun bow desc => bowInsert bow (quantize_descriptor desc vocabulary)) bow) =
      sumCounts bow + descriptors.length ∧
    ((∀ p ∈ bow, 0 < p.2) → ∀ p ∈ descriptors.foldl
        (fun bow desc => bowInsert bow (quantize_descriptor desc vocabulary)) bow, 0 < p.2) := by
  induction descriptors generalizing bow with
  | nil => exact ⟨h, by simp, fun hp => hp⟩
  | cons d rest ih =>
    simp only [List.foldl_cons]
    obtain ⟨h1, h2, h3⟩ := ih (bowInsert bow (quantize_descriptor d vocabulary))
      (bowInsert_keys_nodup h)
    refine ⟨h1, ?_, fun hp => h3 (bowInsert_pos hp)⟩
    rw [h2, bowInsert_sum h]
    simp only [List.length_cons]
    omega

theorem descriptors_to_bow_keys_nodup (vocabulary descriptors : List (List Nat)) :
    ((descriptors_to_bow vocabulary descriptors).map Prod.fst).Nodup :=
  (bow_fold_inv vocabulary descriptors [] (by simp)).1

theorem descriptors_to_bow_sum (vocabulary descriptors : List (List Nat)) :
    sumCounts (descriptors_to_bow vocabulary descriptors) = descriptors.length := by
  have := (bow_fold_inv vocabulary descriptors [] (by simp)).2.1
  simpa [descriptors_to_bow, sumCounts] using this

theorem descriptors_to_bow_pos (vocabulary descriptors : List (List Nat)) :
    ∀ p ∈ descriptors_to_bow vocabulary descriptors, 0 < p.2 :=
  (bow_fold_inv vocabulary descriptors [] (by simp)).2.2 (by simp)

/-- C5: for every target, each `(word, count)` histogram entry is mapped by
`compute_tfidf_vector` to the weight `(count / num_features) * idf[word]`, and
the histogram's counts sum to the number of quantized descriptors — the
target's budgeted feature count — so the two candidate denominators coincide
when `num_features` is that count, as in `process_targets`. -/
theorem c5_tfidf_formula (vocabulary descriptors : List (List Nat)) (idf_weights : Nat → ℝ)
    (num_features : Nat) (hv : vocabulary ≠ []) :
    sumCounts (descriptors_to_bow vocabulary descriptors) = descriptors.length ∧
    compute_tfidf_vector idf_weights (descriptors_to_bow vocabulary descriptors) num_features =
      (descriptors_to_bow vocabulary descriptors).map
        (fun p => (p.1, ((p.2 : ℝ) / (num_features : ℝ)) * idf_weights p.1)) :=
  ⟨descriptors_to_bow_sum vocabulary descriptors, rfl⟩

theorem c5_witness :
    (([[0]] : List (List Nat)) ≠ []) ∧
    (sumCounts (descriptors_to_bow [[0]] [[1], [2]]) = ([[1], [2]] : List (List Nat)).length ∧
    compute_tfidf_vector (fun _ => (1 : ℝ)) (descriptors_to_bow [[0]] [[1], [2]]) 2 =
      (descriptors_to_bow [[0]] [[1], [2]]).map
        (fun p => (p.1, ((p.2 : ℝ) / ((2 : Nat) : ℝ)) * (fun _ => (1 : ℝ)) p.1))) :=
  ⟨by decide, c5_tfidf_formula [[0]] [[1], [2]] (fun _ => (1 : ℝ)) 2 (by decide)⟩

/-- C6 counterexample: a single target whose single descriptor quantizes to
word 0. The histogram is `{0: 1}` (non-zero count at word 0), but the IDF
weight of word 0 is `ln(2/2) = 0`, so the TF-IDF vector is `{0: 0.0}`: word 0
is in the non-zero support of the histogram but not of the TF-IDF vector, so
the two supports differ. -/
theorem c6_counterexample :
    descriptors_to_bow [[0]] [[0]] = [(0, 1)] ∧
    compute_tfidf_vector (compute_idf [descriptors_to_bow [[0]] [[0]]])
      (descriptors_to_bow [[0]] [[0]]) 1 = [(0, 0)] ∧
    (∃ p ∈ descriptors_to_bow [[0]] [[0]], p.1 = 0 ∧ p.2 ≠ 0) ∧
    ¬ (∃ p ∈ compute_tfidf_vector (compute_idf [descriptors_to_bow [[0]] [[0]]])
        (descriptors_to_bow [[0]] [[0]]) 1, p.1 = 0 ∧ p.2 ≠ 0) := by
  have hbow : descriptors_to_bow [[0]] [[0]] = [(0, 1)] := by decide
  have htf : compute_tfidf_vector (compute_idf [descriptors_to_bow [[0]] [[0]]])
      (descriptors_to_bow [[0]] [[0]]) 1 = [(0, 0)] := by
    rw [hbow]
    show [((0 : Nat), (((1 : Nat) : ℝ) / ((1 : Nat) : ℝ)) * compute_idf [[(0, 1)]] 0)] = [(0, 0)]
    rw [idf_one_target_word0]
    norm_num
  refine ⟨hbow, htf, ?_, ?_⟩
  · rw [hbow]
    exact ⟨(0, 1), by simp⟩
  · rw [htf]
    rintro ⟨p, hp, h0, hne⟩
    simp only [List.mem_singleton] at hp
    rw [hp] at hne
    exact hne rfl

/-- C6 (amended): for every target, the TF-IDF vector has exactly the same key
set as the histogram, and every histogram count is non-zero; but the non-zero
TF-IDF support consists of the histogram keys whose IDF weight is non-zero
(entry-wise, the weight is non-zero iff the word's IDF weight is), so the two
non-zero supports coincide exactly when no histogram key has IDF weight 0
(a word occurring in every target has IDF weight 0 and drops out). -/
theorem c6_support_amended (vocabulary descriptors : List (List Nat)) (idf_weights : Nat → ℝ)
    (num_features : Nat) (hv : vocabulary ≠ []) (hn : 0 < num_features) :
    (compute_tfidf_vector idf_weights (descriptors_to_bow vocabulary descriptors)
        num_features).map Prod.fst =
      (descriptors_to_bow vocabulary descriptors).map Prod.fst ∧
    (∀ p ∈ descriptors_to_bow vocabulary descriptors, 0 < p.2) ∧
    (∀ k, k < (descriptors_to_bow vocabulary descriptors).length →
      (((compute_tfidf_vector idf_weights (descriptors_to_bow vocabulary descriptors)
          num_features).getD k (0, 0)).2 ≠ 0 ↔
        idf_weights (((descriptors_to_bow vocabulary descriptors).getD k (0, 0)).1) ≠ 0)) := by
  refine ⟨?_, descriptors_to_bow_pos vocabulary descriptors, ?_⟩
  · unfold compute_tfidf_vector
    rw [List.map_map]
    apply List.map_congr_left
    intro p _
    rfl
  · intro k hk
    set bow := descriptors_to_bow vocabulary descriptors with hbow
    have hget : (compute_tfidf_vector idf_weights bow num_features).getD k (0, 0) =
        (fun p => (p.1, ((p.2 : ℝ) / (num_features : ℝ)) * idf_weights p.1)) (bow.getD k (0, 0)) :=
      getD_map_lt bow _ k (0, 0) (0, 0) hk
    rw [hget]
    have hpmem : bow.getD k (0, 0) ∈ bow := by
      rw [List.getD_eq_getElem _ _ hk]
      exact List.getElem_mem hk
    have hcpos : 0 < (bow.getD k (0, 0)).2 :=
      descriptors_to_bow_pos vocabulary descriptors _ hpmem
    have hc : ((bow.getD k (0, 0)).2 : ℝ) ≠ 0 := by
      exact_mod_cast Nat.pos_iff_ne_zero.mp hcpos
    have hnn : ((num_features : ℝ)) ≠ 0 := by
      exact_mod_cast Nat.pos_iff_ne_zero.mp hn
    constructor
    · intro hne h0
      apply hne
      show ((bow.getD k (0, 0)).2 : ℝ) / (num_features : ℝ) *
          idf_weights (bow.getD k (0, 0)).1 = 0
      rw [h0, mul_zero]
    · intro hne h0
      rcases mul_eq_zero.mp h0 with h | h
      · rcases div_eq_zero_iff.mp h with h | h
        · exact hc h
        · exact hnn h
      · exact hne h

theorem c6_witness :
    ((([[0]] : List (List Nat)) ≠ []) ∧ (0 : Nat) < 1) ∧
    ((compute_tfidf_vector (fun _ => (1 : ℝ)) (descriptors_to_bow [[0]] [[1]]) 1).map Prod.fst =
      (descriptors_to_bow [[0]] [[1]]).map Prod.fst ∧
    (∀ p ∈ descriptors_to_bow [[0]] [[1]], 0 < p.2) ∧
    (∀ k, k < (descriptors_to_bow [[0]] [[1]]).length →
      (((compute_tfidf_vector (fun _ => (1 : ℝ)) (descriptors_to_bow [[0]] [[1]]) 1).getD k
          (0, 0)).2 ≠ 0 ↔
        (fun _ => (1 : ℝ)) (((descriptors_to_bow [[0]] [[1]]).getD k (0, 0)).1) ≠ 0))) :=
  ⟨⟨by decide, by decide⟩,
   c6_support_amended [[0]] [[1]] (fun _ => (1 : ℝ)) 1 (by decide) (by decide)⟩

/-- C3: given at least one pooled descriptor and a positive requested size, the
built vocabulary has length `min(requested size, pooled descriptor count)`,
which is strictly positive; the stored vocabulary size is reduced to the same
value (a graceful degradation, not a failure). The k-means fit is constrained
only by sklearn's contract: fitting `k ≥ 1` clusters on at least `k` samples
yields exactly `k` centers. -/
theorem c3_vocab_size (kmeansFit : Nat → List (List ℚ) → List (List ℚ))
    (vocabulary_size : Nat) (all_descriptors : List (List Nat))
    (hk : ∀ k data, 1 ≤ k → k ≤ data.length → (kmeansFit k data).length = k)
    (h1 : 1 ≤ vocabulary_size) (hd : 1 ≤ all_descriptors.length) :
    (build_vocabulary kmeansFit vocabulary_size all_descriptors).1 =
      min vocabulary_size all_descriptors.length ∧
    (build_vocabulary kmeansFit vocabulary_size all_descriptors).2.length =
      min vocabulary_size all_descriptors.length ∧
    0 < (build_vocabulary kmeansFit vocabulary_size all_descriptors).2.length := by
  have hV : (if all_descriptors.length < vocabulary_size then all_descriptors.length
      else vocabulary_size) = min vocabulary_size all_descriptors.length := by
    split <;> omega
  have hfit : (kmeansFit (min vocabulary_size all_descriptors.length)
      (all_descriptors.map unpackbits)).length = min vocabulary_size all_descriptors.length :=
    hk _ _ (by omega) (by rw [List.length_map]; omega)
  have e1 : (build_vocabulary kmeansFit vocabulary_size all_descriptors).1 =
      min vocabulary_size all_descriptors.length := by
    simp only [build_vocabulary, hV]
  have e2 : (build_vocabulary kmeansFit vocabulary_size all_descriptors).2.length =
      min vocabulary_size all_descriptors.length := by
    simp only [build_vocabulary, List.length_map, hV]
    exact hfit
  exact ⟨e1, e2, by rw [e2]; omega⟩

theorem c3_witness :
    ((∀ k data, 1 ≤ k → k ≤ data.length →
        ((fun (k : Nat) (_ : List (List ℚ)) => List.replicate k ([] : List ℚ)) k data).length = k) ∧
      (1 : Nat) ≤ 2 ∧ (1 : Nat) ≤ ([[0]] : List (List Nat)).length) ∧
    ((build_vocabulary (fun k _ => List.replicate k []) 2 [[0]]).1 =
      min 2 ([[0]] : List (List Nat)).length ∧
    (build_vocabulary (fun k _ => List.replicate k []) 2 [[0]]).2.length =
      min 2 ([[0]] : List (List Nat)).length ∧
    0 < (build_vocabulary (fun k _ => List.replicate k []) 2 [[0]]).2.length) :=
  ⟨⟨by intro k data h1 h2; simp, by decide, by decide⟩,
   c3_vocab_size (fun k _ => List.replicate k []) 2 [[0]]
     (by intro k data h1 h2; simp) (by decide) (by decide)⟩

theorem extractAll_ok (images : List ImageInput)
    (h : ∀ i ∈ images, isLoadFail i = false) :
    extractAll images = Except.ok (usableTargets images) := by
  induction images with
  | nil => rfl
  | cons img rest ih =>
    cases img with
    | loadFail name =>
      have := h _ (List.mem_cons_self _ _)
      simp [isLoadFail] at this
    | loaded name descs =>
      have hrest := ih (fun i hi => h i (List.mem_cons_of_mem _ hi))
      simp only [extractAll, hrest, usableTargets, List.filterMap_cons]
      by_cases hde : descs.isEmpty
      · simp [hde]
      · simp [hde]

theorem extractAll_error (images : List ImageInput)
    (h : ∃ i ∈ images, isLoadFail i = true) :
    ∃ e, extractAll images = Except.error e := by
  induction images with
  | nil => simp at h
  | cons img rest ih =>
    cases img with
    | loadFail name => exact ⟨"Failed to load image: " ++ name, rfl⟩
    | loaded name descs =>
      have hrest : ∃ i ∈ rest, isLoadFail i = true := by
        obtain ⟨i, hi, hfail⟩ := h
        rcases List.mem_cons.mp hi with heq | hmem
        · rw [heq] at hfail
          simp [isLoadFail] at hfail
        · exact ⟨i, hmem, hfail⟩
      obtain ⟨e, he⟩ := ih hrest
      exact ⟨e, by simp only [extractAll, he]⟩

/-- C7 counterexample: the first image fails to load while the second image
has a usable feature, yet the build aborts with an error. An image-load
failure is not logged-and-skipped: `extract_features` raises `ValueError` and
`process_targets` does not catch it, so the abort condition is not equivalent
to "zero images produced any usable features". -/
theorem c7_counterexample :
    process_targets [ImageInput.loadFail "a", ImageInput.loaded "b" [[1]]] =
      Except.error "Failed to load image: a" ∧
    (ImageInput.loaded "b" [[1]] ∈ [ImageInput.loadFail "a", ImageInput.loaded "b" [[1]]] ∧
      ([[1]] : List (List Nat)) ≠ []) :=
  ⟨rfl, by simp, by decide⟩

/-- C7 (amended): the build succeeds iff every image loads and at least one
loaded image yields features; it aborts (non-zero exit, modelled as
`Except.error`) iff some image fails to load or no image yields any feature.
Zero-feature extractions alone are logged and skipped: on success the result is
exactly the records of the images with a non-empty descriptor list, in order. -/
theorem c7_abort_amended (images : List ImageInput) :
    (process_targets images).toOption =
      if (images.all (fun i => !isLoadFail i) && !(usableTargets images).isEmpty) = true
      then some (usableTargets images) else none := by
  by_cases hall : ∀ i ∈ images, isLoadFail i = false
  · have hok := extractAll_ok images hall
    have hb : images.all (fun i => !isLoadFail i) = true := by
      rw [List.all_eq_true]
      intro i hi
      simp [hall i hi]
    simp only [process_targets, hok, hb, Bool.true_and]
    by_cases hemp : (usableTargets images).isEmpty
    · simp [hemp, Except.toOption]
    · simp [hemp, Except.toOption]
  · have hex : ∃ i ∈ images, isLoadFail i = true := by
      push_neg at hall
      obtain ⟨i, hi, hfail⟩ := hall
      exact ⟨i, hi, by simpa using hfail⟩
    obtain ⟨e, he⟩ := extractAll_error images hex
    have hb : images.all (fun i => !isLoadFail i) = false := by
      obtain ⟨i, hi, hfail⟩ := hex
      rw [List.all_eq_false]
      exact ⟨i, hi, by simp [hfail]⟩
    simp only [process_targets, he, hb, Bool.false_and]
    simp [Except.toOption]

theorem countCell_append (kps : List KeyPt) (imgH imgW : ℚ) (s t : List Nat) (c : ℤ × ℤ) :
    countCell kps imgH imgW (s ++ t) c =
      countCell kps imgH imgW s c + countCell kps imgH imgW t c := by
  simp [countCell, List.countP_append]

theorem countCell_singleton (kps : List KeyPt) (imgH imgW : ℚ) (i : Nat) (c : ℤ × ℤ) :
    countCell kps imgH imgW [i] c =
      if cellOf imgH imgW (kps.getD i ⟨0, 0, 0⟩) = c then 1 else 0 := by
  simp only [countCell, List.countP_cons, List.countP_nil, Nat.zero_add]
  by_cases h : cellOf imgH imgW (kps.getD i ⟨0, 0, 0⟩) = c <;> simp [h]

theorem nodup_subset_length {l1 l2 : List Nat} (h1 : l1.Nodup) (hsub : ∀ x ∈ l1, x ∈ l2) :
    l1.length ≤ l2.length := by
  calc l1.length = l1.toFinset.card := (List.toFinset_card_of_nodup h1).symm
    _ ≤ l2.toFinset.card := Finset.card_le_card (fun x hx =>
        List.mem_toFinset.mpr (hsub x (List.mem_toFinset.mp hx)))
    _ ≤ l2.length := l2.toFinset_card_le

theorem fp_extend (budget quota : Nat) (kps : List KeyPt) (imgH imgW : ℚ) :
    ∀ (rest sel : List Nat) (counts : (ℤ × ℤ) → Nat),
      ∃ t, firstPass budget quota kps imgH imgW rest sel counts = sel ++ t := by
  intro rest
  induction rest with
  | nil => exact fun sel counts => ⟨[], by simp [firstPass]⟩
  | cons idx rest ih =>
    intro sel counts
    simp only [firstPass]
    by_cases h1 : counts (cellOf imgH imgW (kps.getD idx ⟨0, 0, 0⟩)) < quota
    · rw [if_pos h1]
      by_cases h2 : budget ≤ sel.length + 1
      · rw [if_pos h2]
        exact ⟨[idx], rfl⟩
      · rw [if_neg h2]
        obtain ⟨t, ht⟩ := ih (sel ++ [idx]) _
        exact ⟨[idx] ++ t, by rw [ht, List.append_assoc]⟩
    · rw [if_neg h1]
      exact ih sel counts

theorem fp_sublist (budget quota : Nat) (kps : List KeyPt) (imgH imgW : ℚ) :
    ∀ (rest sel : List Nat) (counts : (ℤ × ℤ) → Nat),
      List.Sublist (firstPass budget quota kps imgH imgW rest sel counts) (sel ++ rest) := by
  intro rest
  induction rest with
  | nil => exact fun sel counts => by simp [firstPass]
  | cons idx rest ih =>
    intro sel counts
    simp only [firstPass]
    by_cases h1 : counts (cellOf imgH imgW (kps.getD idx ⟨0, 0, 0⟩)) < quota
    · rw [if_pos h1]
      by_cases h2 : budget ≤ sel.length + 1
      · rw [if_pos h2]
        exact ((List.cons_sublist_cons.mpr (List.nil_sublist rest)).append_left sel)
      · rw [if_neg h2]
        have := ih (sel ++ [idx]) (fun c2 =>
          if c2 = cellOf imgH imgW (kps.getD idx ⟨0, 0, 0⟩) then counts c2 + 1 else counts c2)
        rwa [List.append_assoc] at this
    · rw [if_neg h1]
      exact (ih sel counts).trans ((List.sublist_cons_self idx rest).append_left sel)

theorem fp_quota_zero (budget : Nat) (kps : List KeyPt) (imgH imgW : ℚ) :
    ∀ (rest sel : List Nat) (counts : (ℤ × ℤ) → Nat),
      firstPass budget 0 kps imgH imgW rest sel counts = sel := by
  intro rest
  induction rest with
  | nil => exact fun sel counts => by simp [firstPass]
  | cons idx rest ih =>
    intro sel counts
    simp only [firstPass]
    rw [if_neg (by omega)]
    exact ih sel counts

theorem fp_length_le (budget quota : Nat) (kps : List KeyPt) (imgH imgW : ℚ) :
    ∀ (rest sel : List Nat) (counts : (ℤ × ℤ) → Nat), sel.length < budget →
      (firstPass budget quota kps imgH imgW rest sel counts).length ≤ budget := by
  intro rest
  induction rest with
  | nil =>
    intro sel counts h
    simp only [firstPass]
    omega
  | cons idx rest ih =>
    intro sel counts h
    simp only [firstPass]
    by_cases h1 : counts (cellOf imgH imgW (kps.getD idx ⟨0, 0, 0⟩)) < quota
    · rw [if_pos h1]
      by_cases h2 : budget ≤ sel.length + 1
      · rw [if_pos h2]
        simp only [List.length_append, List.length_cons, List.length_nil]
        omega
      · rw [if_neg h2]
        apply ih
        simp only [List.length_append, List.length_cons, List.length_nil]
        omega
    · rw [if_neg h1]
      exact ih sel counts h

theorem fp_quota_bound (budget quota : Nat) (kps : List KeyPt) (imgH imgW : ℚ) :
    ∀ (rest sel : List Nat) (counts : (ℤ × ℤ) → Nat),
      (∀ c, counts c = countCell kps imgH imgW sel c) →
      (∀ c, counts c ≤ quota) →
      ∀ c, countCell kps imgH imgW
        (firstPass budget quota kps imgH imgW rest sel counts) c ≤ quota := by
  intro rest
  induction rest with
  | nil =>
    intro sel counts hinv hq c
    simp only [firstPass]
    rw [← hinv c]
    exact hq c
  | cons idx rest ih =>
    intro sel counts hinv hq c
    simp only [firstPass]
    by_cases h1 : counts (cellOf imgH imgW (kps.getD idx ⟨0, 0, 0⟩)) < quota
    · rw [if_pos h1]
      by_cases h2 : budget ≤ sel.length + 1
      · rw [if_pos h2]
        rw [countCell_append, countCell_singleton, ← hinv c]
        by_cases hc : cellOf imgH imgW (kps.getD idx ⟨0, 0, 0⟩) = c
        · rw [if_pos hc, ← hc]
          omega
        · rw [if_neg hc]
          have := hq c
          omega
      · rw [if_neg h2]
        apply ih
        · intro c2
          rw [countCell_append, countCell_singleton, ← hinv c2]
          by_cases hc : c2 = cellOf imgH imgW (kps.getD idx ⟨0, 0, 0⟩)
          · rw [if_pos hc, if_pos hc.symm]
          · rw [if_neg hc, if_neg (fun h => hc h.symm)]
            omega
        · intro c2
          by_cases hc : c2 = cellOf imgH imgW (kps.getD idx ⟨0, 0, 0⟩)
          · rw [if_pos hc, hc]
            omega
          · rw [if_neg hc]
            exact hq c2
    · rw [if_neg h1]
      exact ih sel counts hinv hq c

theorem fp_mem (budget quota : Nat) (kps : List KeyPt) (imgH imgW : ℚ) :
    ∀ (rest sel : List Nat) (counts : (ℤ × ℤ) → Nat),
      (∀ c, counts c = countCell kps imgH imgW sel c) →
      (firstPass budget quota kps imgH imgW rest sel counts).length < budget →
      ∀ i ∈ rest,
        countCell kps imgH imgW (firstPass budget quota kps imgH imgW rest sel counts)
          (cellOf imgH imgW (kps.getD i ⟨0, 0, 0⟩)) < quota →
        i ∈ firstPass budget quota kps imgH imgW rest sel counts := by
  intro rest
  induction rest with
  | nil =>
    intro sel counts _ _ i hi
    simp at hi
  | cons idx rest ih =>
    intro sel counts hinv hlen i hi hcnt
    by_cases h1 : counts (cellOf imgH imgW (kps.getD idx ⟨0, 0, 0⟩)) < quota
    · by_cases h2 : budget ≤ sel.length + 1
      · exfalso
        have hres : firstPass budget quota kps imgH imgW (idx :: rest) sel counts =
            sel ++ [idx] := by
          simp only [firstPass]
          rw [if_pos h1, if_pos h2]
        rw [hres] at hlen
        simp only [List.length_append, List.length_cons, List.length_nil] at hlen
        omega
      · have hres : firstPass budget quota kps imgH imgW (idx :: rest) sel counts =
            firstPass budget quota kps imgH imgW rest (sel ++ [idx])
              (fun c2 => if c2 = cellOf imgH imgW (kps.getD idx ⟨0, 0, 0⟩)
                then counts c2 + 1 else counts c2) := by
          simp only [firstPass]
          rw [if_pos h1, if_neg h2]
        rw [hres] at hlen hcnt ⊢
        have hinv2 : ∀ c2, (if c2 = cellOf imgH imgW (kps.getD idx ⟨0, 0, 0⟩)
            then counts c2 + 1 else counts c2) = countCell kps imgH imgW (sel ++ [idx]) c2 := by
          intro c2
          rw [countCell_append, countCell_singleton, ← hinv c2]
          by_cases hc : c2 = cellOf imgH imgW (kps.getD idx ⟨0, 0, 0⟩)
          · rw [if_pos hc, if_pos hc.symm]
          · rw [if_neg hc, if_neg (fun h => hc h.symm)]
            omega
        rcases List.mem_cons.mp hi with heq | hmem
        · obtain ⟨t, ht⟩ := fp_extend budget quota kps imgH imgW rest (sel ++ [idx]) _
          rw [ht, heq]
          simp
        · exact ih (sel ++ [idx]) _ hinv2 hlen i hmem hcnt
    · have hres : firstPass budget quota kps imgH imgW (idx :: rest) sel counts =
          firstPass budget quota kps imgH imgW rest sel counts := by
        simp only [firstPass]
        rw [if_neg h1]
      rw [hres] at hlen hcnt ⊢
      rcases List.mem_cons.mp hi with heq | hmem
      · exfalso
        obtain ⟨t, ht⟩ := fp_extend budget quota kps imgH imgW rest sel counts
        have hmono : counts (cellOf imgH imgW (kps.getD idx ⟨0, 0, 0⟩)) ≤
            countCell kps imgH imgW (firstPass budget quota kps imgH imgW rest sel counts)
              (cellOf imgH imgW (kps.getD idx ⟨0, 0, 0⟩)) := by
          rw [ht, countCell_append, hinv]
          omega
        rw [heq] at hcnt
        omega
      · exact ih sel counts hinv hlen i hmem hcnt

theorem sp_extend (budget : Nat) :
    ∀ (rest sel : List Nat), ∃ t, secondPass budget rest sel = sel ++ t := by
  intro rest
  induction rest with
  | nil => exact fun sel => ⟨[], by simp [secondPass]⟩
  | cons idx rest ih =>
    intro sel
    simp only [secondPass]
    by_cases hmem : idx ∈ sel
    · rw [if_pos hmem]
      exact ih sel
    · rw [if_neg hmem]
      by_cases hstop : budget ≤ sel.length + 1
      · rw [if_pos hstop]
        exact ⟨[idx], rfl⟩
      · rw [if_neg hstop]
        obtain ⟨t, ht⟩ := ih (sel ++ [idx])
        exact ⟨[idx] ++ t, by rw [ht, List.append_assoc]⟩

theorem sp_nodup (budget : Nat) :
    ∀ (rest sel : List Nat), sel.Nodup → (secondPass budget rest sel).Nodup := by
  intro rest
  induction rest with
  | nil =>
    intro sel h
    simpa [secondPass] using h
  | cons idx rest ih =>
    intro sel h
    simp only [secondPass]
    by_cases hmem : idx ∈ sel
    · rw [if_pos hmem]
      exact ih sel h
    · rw [if_neg hmem]
      have happ : (sel ++ [idx]).Nodup := by
        rw [List.nodup_append]
        exact ⟨h, List.nodup_singleton idx, by simpa using hmem⟩
      by_cases hstop : budget ≤ sel.length + 1
      · rw [if_pos hstop]
        exact happ
      · rw [if_neg hstop]
        exact ih (sel ++ [idx]) happ

theorem sp_mem_sub (budget : Nat) :
    ∀ (rest sel : List Nat) (i : Nat), i ∈ secondPass budget rest sel → i ∈ sel ∨ i ∈ rest := by
  intro rest
  induction rest with
  | nil =>
    intro sel i hi
    simp only [secondPass] at hi
    exact Or.inl hi
  | cons idx rest ih =>
    intro sel i hi
    simp only [secondPass] at hi
    by_cases hmem : idx ∈ sel
    · rw [if_pos hmem] at hi
      rcases ih sel i hi with h | h
      · exact Or.inl h
      · exact Or.inr (List.mem_cons_of_mem _ h)
    · rw [if_neg hmem] at hi
      by_cases hstop : budget ≤ sel.length + 1
      · rw [if_pos hstop] at hi
        rcases List.mem_append.mp hi with h | h
        · exact Or.inl h
        · exact Or.inr (List.mem_cons.mpr (Or.inl (List.mem_singleton.mp h)))
      · rw [if_neg hstop] at hi
        rcases ih (sel ++ [idx]) i hi with h | h
        · rcases List.mem_append.mp h with h2 | h2
          · exact Or.inl h2
          · exact Or.inr (List.mem_cons.mpr (Or.inl (List.mem_singleton.mp h2)))
        · exact Or.inr (List.mem_cons_of_mem _ h)

theorem sp_length_le (budget : Nat) :
    ∀ (rest sel : List Nat), sel.length < budget →
      (secondPass budget rest sel).length ≤ budget := by
  intro rest
  induction rest with
  | nil =>
    intro sel h
    simp only [secondPass]
    omega
  | cons idx rest ih =>
    intro sel h
    simp only [secondPass]
    by_cases hmem : idx ∈ sel
    · rw [if_pos hmem]
      exact ih sel h
    · rw [if_neg hmem]
      by_cases hstop : budget ≤ sel.length + 1
      · rw [if_pos hstop]
        simp only [List.length_append, List.length_cons, List.length_nil]
        omega
      · rw [if_neg hstop]
        apply ih
        simp only [List.length_append, List.length_cons, List.length_nil]
        omega

theorem sp_length_eq (budget : Nat) :
    ∀ (rest sel : List Nat), rest.Nodup → sel.length < budget →
      budget ≤ sel.length + (rest.filter (fun i => decide (i ∉ sel))).length →
      (secondPass budget rest sel).length = budget := by
  intro rest
  induction rest with
  | nil =>
    intro sel _ hlt hge
    simp only [List.filter_nil, List.length_nil] at hge
    omega
  | cons idx rest ih =>
    intro sel hnodup hlt hge
    simp only [secondPass]
    by_cases hmem : idx ∈ sel
    · rw [if_pos hmem]
      have hf : List.filter (fun i => decide (i ∉ sel)) (idx :: rest) =
          List.filter (fun i => decide (i ∉ sel)) rest := by
        simp [List.filter_cons, hmem]
      rw [hf] at hge
      exact ih sel (List.nodup_cons.mp hnodup).2 hlt hge
    · rw [if_neg hmem]
      by_cases hstop : budget ≤ sel.length + 1
      · rw [if_pos hstop]
        simp only [List.length_append, List.length_cons, List.length_nil]
        omega
      · rw [if_neg hstop]
        have hcons : List.filter (fun i => decide (i ∉ sel)) (idx :: rest) =
            idx :: List.filter (fun i => decide (i ∉ sel)) rest := by
          simp [List.filter_cons, hmem]
        rw [hcons] at hge
        apply ih (sel ++ [idx]) (List.nodup_cons.mp hnodup).2
        · simp only [List.length_append, List.length_cons, List.length_nil]
          omega
        · have hfeq : List.filter (fun i => decide (i ∉ sel ++ [idx])) rest =
              List.filter (fun i => decide (i ∉ sel)) rest := by
            apply List.filter_congr
            intro j hj
            have hji : j ≠ idx := fun h => (List.nodup_cons.mp hnodup).1 (h ▸ hj)
            rw [decide_eq_decide]
            simp [List.mem_append, hji]
          rw [hfeq]
          simp only [List.length_cons, List.length_append, List.length_nil] at hge ⊢
          omega

theorem selectIndices_sub (budget : Nat) (kps : List KeyPt) (imgH imgW : ℚ)
    (sorted_indices : List Nat) :
    ∀ i ∈ selectIndices budget kps imgH imgW sorted_indices, i ∈ sorted_indices := by
  intro i hi
  simp only [selectIndices] at hi
  have hs1 : List.Sublist (firstPass budget (budget / (4 * 4)) kps imgH imgW sorted_indices []
      (fun _ => 0)) sorted_indices := by
    simpa using fp_sublist budget (budget / (4 * 4)) kps imgH imgW sorted_indices [] (fun _ => 0)
  by_cases hlt : (firstPass budget (budget / (4 * 4)) kps imgH imgW sorted_indices []
      (fun _ => 0)).length < budget
  · rw [if_pos hlt] at hi
    rcases sp_mem_sub budget sorted_indices _ i hi with h | h
    · exact hs1.mem h
    · exact h
  · rw [if_neg hlt] at hi
    exact hs1.mem hi

theorem selectIndices_nodup (budget : Nat) (kps : List KeyPt) (imgH imgW : ℚ)
    (sorted_indices : List Nat) (hnodup : sorted_indices.Nodup) :
    (selectIndices budget kps imgH imgW sorted_indices).Nodup := by
  simp only [selectIndices]
  have hs1 : List.Sublist (firstPass budget (budget / (4 * 4)) kps imgH imgW sorted_indices []
      (fun _ => 0)) sorted_indices := by
    simpa using fp_sublist budget (budget / (4 * 4)) kps imgH imgW sorted_indices [] (fun _ => 0)
  have hs1n : (firstPass budget (budget / (4 * 4)) kps imgH imgW sorted_indices []
      (fun _ => 0)).Nodup := hnodup.sublist hs1
  by_cases hlt : (firstPass budget (budget / (4 * 4)) kps imgH imgW sorted_indices []
      (fun _ => 0)).length < budget
  · rw [if_pos hlt]
    exact sp_nodup budget sorted_indices _ hs1n
  · rw [if_neg hlt]
    exact hs1n

theorem s1_length_le (budget : Nat) (kps : List KeyPt) (imgH imgW : ℚ)
    (sorted_indices : List Nat) :
    (firstPass budget (budget / (4 * 4)) kps imgH imgW sorted_indices []
      (fun _ => 0)).length ≤ budget := by
  rcases Nat.eq_zero_or_pos budget with h0 | hpos
  · subst h0
    rw [show (0 : Nat) / (4 * 4) = 0 from rfl]
    rw [fp_quota_zero 0 kps imgH imgW sorted_indices [] (fun _ => 0)]
    simp
  · exact fp_length_le budget (budget / (4 * 4)) kps imgH imgW sorted_indices []
      (fun _ => 0) (by simpa using hpos)

theorem selectIndices_length (budget : Nat) (kps : List KeyPt) (imgH imgW : ℚ)
    (sorted_indices : List Nat) (n : Nat) (hperm : sorted_indices.Perm (List.range n))
    (hgt : budget < n) :
    (selectIndices budget kps imgH imgW sorted_indices).length = budget := by
  have hnodupS : sorted_indices.Nodup := hperm.nodup_iff.mpr (List.nodup_range n)
  have hlenS : sorted_indices.length = n := by simpa using hperm.length_eq
  have hs1 : List.Sublist (firstPass budget (budget / (4 * 4)) kps imgH imgW sorted_indices []
      (fun _ => 0)) sorted_indices := by
    simpa using fp_sublist budget (budget / (4 * 4)) kps imgH imgW sorted_indices [] (fun _ => 0)
  have hs1n : (firstPass budget (budget / (4 * 4)) kps imgH imgW sorted_indices []
      (fun _ => 0)).Nodup := hnodupS.sublist hs1
  have hle : (firstPass budget (budget / (4 * 4)) kps imgH imgW sorted_indices []
      (fun _ => 0)).length ≤ budget := s1_length_le budget kps imgH imgW sorted_indices
  simp only [selectIndices]
  by_cases hlt : (firstPass budget (budget / (4 * 4)) kps imgH imgW sorted_indices []
      (fun _ => 0)).length < budget
  · rw [if_pos hlt]
    apply sp_length_eq budget sorted_indices _ hnodupS hlt
    have hsplit := List.length_eq_length_filter_add
      (l := sorted_indices)
      (fun i => decide (i ∈ firstPass budget (budget / (4 * 4)) kps imgH imgW sorted_indices []
        (fun _ => 0)))
    have hfin : (sorted_indices.filter (fun i => decide (i ∈ firstPass budget (budget / (4 * 4))
        kps imgH imgW sorted_indices [] (fun _ => 0)))).length ≤
        (firstPass budget (budget / (4 * 4)) kps imgH imgW sorted_indices []
          (fun _ => 0)).length := by
      apply nodup_subset_length (hnodupS.filter _)
      intro x hx
      have := (List.mem_filter.mp hx).2
      simpa using this
    have hnotf : sorted_indices.filter
        (fun i => !(decide (i ∈ firstPass budget (budget / (4 * 4)) kps imgH imgW
          sorted_indices [] (fun _ => 0)))) =
        sorted_indices.filter (fun i => decide (i ∉ firstPass budget (budget / (4 * 4)) kps
          imgH imgW sorted_indices [] (fun _ => 0))) := by
      apply List.filter_congr
      intro j _
      rw [Bool.eq_iff_iff]
      simp
    rw [hnotf] at hsplit
    omega
  · rw [if_neg hlt]
    omega

theorem map_range_getD {α : Type} (l : List α) (d : α) :
    (List.range l.length).map (fun i => l.getD i d) = l := by
  apply List.ext_getElem
  · simp
  · intro i h1 h2
    simp only [List.getElem_map, List.getElem_range]
    exact List.getD_eq_getElem l d h2

/-- C2: the budgeter returns exactly `min(input size, max_features_per_target)`
features (for each of the three parallel outputs), and when the input size is
at most the budget it returns the input triple unchanged (the no-op fast path,
which makes the budgeter idempotent). `sorted_indices` is constrained only by
argsort's contract of being a permutation of the input indices. -/
theorem c2_budget_bound (max_features_per_target : Nat) (keypoints : List (ℚ × ℚ))
    (descriptors : List (List Nat)) (kps : List KeyPt) (imgH imgW : ℚ)
    (sorted_indices : List Nat)
    (hperm : sorted_indices.Perm (List.range keypoints.length))
    (hkl : kps.length = keypoints.length) (hdl : descriptors.length = keypoints.length) :
    ((select_best_features max_features_per_target keypoints descriptors kps imgH imgW
        sorted_indices).1.length = min keypoints.length max_features_per_target ∧
     (select_best_features max_features_per_target keypoints descriptors kps imgH imgW
        sorted_indices).2.1.length = min keypoints.length max_features_per_target ∧
     (select_best_features max_features_per_target keypoints descriptors kps imgH imgW
        sorted_indices).2.2.length = min keypoints.length max_features_per_target) ∧
    (keypoints.length ≤ max_features_per_target →
      select_best_features max_features_per_target keypoints descriptors kps imgH imgW
        sorted_indices = (keypoints, descriptors, kps)) := by
  by_cases hle : keypoints.length ≤ max_features_per_target
  · have heq : select_best_features max_features_per_target keypoints descriptors kps imgH imgW
        sorted_indices = (keypoints, descriptors, kps) := by
      simp only [select_best_features, if_pos hle]
    have hmin : min keypoints.length max_features_per_target = keypoints.length :=
      Nat.min_eq_left hle
    rw [heq]
    exact ⟨⟨hmin.symm, by rw [hdl]; exact hmin.symm, by rw [hkl]; exact hmin.symm⟩,
      fun _ => rfl⟩
  · have hgt : max_features_per_target < keypoints.length := Nat.lt_of_not_le hle
    have hsl := selectIndices_length max_features_per_target kps imgH imgW sorted_indices
      keypoints.length hperm hgt
    have hmin : min keypoints.length max_features_per_target = max_features_per_target :=
      Nat.min_eq_right (Nat.le_of_lt hgt)
    refine ⟨⟨?_, ?_, ?_⟩, fun h => absurd h hle⟩ <;>
      simp only [select_best_features, if_neg hle, List.length_map] <;>
      rw [hsl, hmin]

theorem c2_witness :
    (([0] : List Nat).Perm (List.range ([((0 : ℚ), (0 : ℚ))] : List (ℚ × ℚ)).length) ∧
     ([⟨0, 0, 1⟩] : List KeyPt).length = ([((0 : ℚ), (0 : ℚ))] : List (ℚ × ℚ)).length ∧
     ([[0]] : List (List Nat)).length = ([((0 : ℚ), (0 : ℚ))] : List (ℚ × ℚ)).length) ∧
    (((select_best_features 5 [((0 : ℚ), (0 : ℚ))] [[0]] [⟨0, 0, 1⟩] 4 4 [0]).1.length =
        min ([((0 : ℚ), (0 : ℚ))] : List (ℚ × ℚ)).length 5 ∧
      (select_best_features 5 [((0 : ℚ), (0 : ℚ))] [[0]] [⟨0, 0, 1⟩] 4 4 [0]).2.1.length =
        min ([((0 : ℚ), (0 : ℚ))] : List (ℚ × ℚ)).length 5 ∧
      (select_best_features 5 [((0 : ℚ), (0 : ℚ))] [[0]] [⟨0, 0, 1⟩] 4 4 [0]).2.2.length =
        min ([((0 : ℚ), (0 : ℚ))] : List (ℚ × ℚ)).length 5) ∧
     (([((0 : ℚ), (0 : ℚ))] : List (ℚ × ℚ)).length ≤ 5 →
      select_best_features 5 [((0 : ℚ), (0 : ℚ))] [[0]] [⟨0, 0, 1⟩] 4 4 [0] =
        ([((0 : ℚ), (0 : ℚ))], [[0]], [⟨0, 0, 1⟩]))) :=
  ⟨⟨by decide, by decide, by decide⟩,
   c2_budget_bound 5 [((0 : ℚ), (0 : ℚ))] [[0]] [⟨0, 0, 1⟩] 4 4 [0]
     (by decide) (by decide) (by decide)⟩

/-- C10: the budgeter never selects the same input feature twice and keeps the
three outputs aligned: there is one duplicate-free, in-range index list such
that the i-th output keypoint position, descriptor, and cv2 keypoint are the
entries of the three input arrays at the same original index. -/
theorem c10_nodup_aligned (max_features_per_target : Nat) (keypoints : List (ℚ × ℚ))
    (descriptors : List (List Nat)) (kps : List KeyPt) (imgH imgW : ℚ)
    (sorted_indices : List Nat)
    (hperm : sorted_indices.Perm (List.range keypoints.length))
    (hkl : kps.length = keypoints.length) (hdl : descriptors.length = keypoints.length) :
    ∃ sel : List Nat, sel.Nodup ∧ (∀ i ∈ sel, i < keypoints.length) ∧
      (select_best_features max_features_per_target keypoints descriptors kps imgH imgW
        sorted_indices).1 = sel.map (fun i => keypoints.getD i (0, 0)) ∧
      (select_best_features max_features_per_target keypoints descriptors kps imgH imgW
        sorted_indices).2.1 = sel.map (fun i => descriptors.getD i []) ∧
      (select_best_features max_features_per_target keypoints descriptors kps imgH imgW
        sorted_indices).2.2 = sel.map (fun i => kps.getD i ⟨0, 0, 0⟩) := by
  by_cases hle : keypoints.length ≤ max_features_per_target
  · refine ⟨List.range keypoints.length, List.nodup_range keypoints.length, by simp, ?_, ?_, ?_⟩
    · simp only [select_best_features, if_pos hle]
      exact (map_range_getD keypoints (0, 0)).symm
    · simp only [select_best_features, if_pos hle]
      rw [← hdl]
      exact (map_range_getD descriptors []).symm
    · simp only [select_best_features, if_pos hle]
      rw [← hkl]
      exact (map_range_getD kps ⟨0, 0, 0⟩).symm
  · refine ⟨selectIndices max_features_per_target kps imgH imgW sorted_indices, ?_, ?_, ?_, ?_, ?_⟩
    · exact selectIndices_nodup max_features_per_target kps imgH imgW sorted_indices
        (hperm.nodup_iff.mpr (List.nodup_range keypoints.length))
    · intro i hi
      have h1 := selectIndices_sub max_features_per_target kps imgH imgW sorted_indices i hi
      have h2 : i ∈ List.range keypoints.length := hperm.mem_iff.mp h1
      simpa using h2
    · simp only [select_best_features, if_neg hle]
    · simp only [select_best_features, if_neg hle]
    · simp only [select_best_features, if_neg hle]

theorem c10_witness :
    (([0] : List Nat).Perm (List.range ([((0 : ℚ), (0 : ℚ))] : List (ℚ × ℚ)).length) ∧
     ([⟨0, 0, 1⟩] : List KeyPt).length = ([((0 : ℚ), (0 : ℚ))] : List (ℚ × ℚ)).length ∧
     ([[7]] : List (List Nat)).length = ([((0 : ℚ), (0 : ℚ))] : List (ℚ × ℚ)).length) ∧
    (∃ sel : List Nat, sel.Nodup ∧
      (∀ i ∈ sel, i < ([((0 : ℚ), (0 : ℚ))] : List (ℚ × ℚ)).length) ∧
      (select_best_features 3 [((0 : ℚ), (0 : ℚ))] [[7]] [⟨0, 0, 1⟩] 4 4 [0]).1 =
        sel.map (fun i => ([((0 : ℚ), (0 : ℚ))] : List (ℚ × ℚ)).getD i (0, 0)) ∧
      (select_best_features 3 [((0 : ℚ), (0 : ℚ))] [[7]] [⟨0, 0, 1⟩] 4 4 [0]).2.1 =
        sel.map (fun i => ([[7]] : List (List Nat)).getD i []) ∧
      (select_best_features 3 [((0 : ℚ), (0 : ℚ))] [[7]] [⟨0, 0, 1⟩] 4 4 [0]).2.2 =
        sel.map (fun i => ([⟨0, 0, 1⟩] : List KeyPt).getD i ⟨0, 0, 0⟩)) :=
  ⟨⟨by decide, by decide, by decide⟩,
   c10_nodup_aligned 3 [((0 : ℚ), (0 : ℚ))] [[7]] [⟨0, 0, 1⟩] 4 4 [0]
     (by decide) (by decide) (by decide)⟩

/-- C8: when the input exceeds the budget, the first pass of the budgeter,
walking the response-sorted index list (its selection is a sublist of that
order, hence itself response-descending) and stopping at the global budget,
admits at most `max_features_per_target / 16` features per 4×4 grid cell; a
cell contributes more than this quota to the final selection only if the first
pass ended below the budget (exactly when the second pass runs), and in that
case every cell that is below quota after the first pass has had all of its
candidate features admitted (all other cells are exhausted). -/
theorem c8_first_pass_quota (budget : Nat) (kps : List KeyPt) (imgH imgW : ℚ)
    (sorted_indices : List Nat) (hsort : respDescending kps sorted_indices) :
    List.Sublist (firstPass budget (budget / (4 * 4)) kps imgH imgW sorted_indices []
      (fun _ => 0)) sorted_indices ∧
    respDescending kps (firstPass budget (budget / (4 * 4)) kps imgH imgW sorted_indices []
      (fun _ => 0)) ∧
    (firstPass budget (budget / (4 * 4)) kps imgH imgW sorted_indices []
      (fun _ => 0)).length ≤ budget ∧
    (∀ c, countCell kps imgH imgW (firstPass budget (budget / (4 * 4)) kps imgH imgW
      sorted_indices [] (fun _ => 0)) c ≤ budget / (4 * 4)) ∧
    (∀ c, budget / (4 * 4) < countCell kps imgH imgW
        (selectIndices budget kps imgH imgW sorted_indices) c →
      (firstPass budget (budget / (4 * 4)) kps imgH imgW sorted_indices []
        (fun _ => 0)).length < budget ∧
      (∀ c2, countCell kps imgH imgW (firstPass budget (budget / (4 * 4)) kps imgH imgW
          sorted_indices [] (fun _ => 0)) c2 < budget / (4 * 4) →
        ∀ i ∈ sorted_indices,
          cellOf imgH imgW (kps.getD i ⟨0, 0, 0⟩) = c2 →
          i ∈ firstPass budget (budget / (4 * 4)) kps imgH imgW sorted_indices []
            (fun _ => 0))) := by
  have hinv0 : ∀ c, (fun _ : ℤ × ℤ => 0) c = countCell kps imgH imgW [] c := by
    intro c
    simp [countCell]
  have hsub : List.Sublist (firstPass budget (budget / (4 * 4)) kps imgH imgW sorted_indices []
      (fun _ => 0)) sorted_indices := by
    simpa using fp_sublist budget (budget / (4 * 4)) kps imgH imgW sorted_indices [] (fun _ => 0)
  have hquota : ∀ c, countCell kps imgH imgW (firstPass budget (budget / (4 * 4)) kps imgH imgW
      sorted_indices [] (fun _ => 0)) c ≤ budget / (4 * 4) :=
    fp_quota_bound budget (budget / (4 * 4)) kps imgH imgW sorted_indices [] (fun _ => 0)
      hinv0 (fun _ => Nat.zero_le _)
  refine ⟨hsub, hsort.sublist hsub, s1_length_le budget kps imgH imgW sorted_indices,
    hquota, ?_⟩
  intro c hc
  have hlt : (firstPass budget (budget / (4 * 4)) kps imgH imgW sorted_indices []
      (fun _ => 0)).length < budget := by
    by_contra hnot
    have heq : selectIndices budget kps imgH imgW sorted_indices =
        firstPass budget (budget / (4 * 4)) kps imgH imgW sorted_indices [] (fun _ => 0) := by
      simp only [selectIndices]
      rw [if_neg hnot]
    rw [heq] at hc
    exact absurd hc (Nat.not_lt.mpr (hquota c))
  refine ⟨hlt, ?_⟩
  intro c2 hc2 i hi hcell
  apply fp_mem budget (budget / (4 * 4)) kps imgH imgW sorted_indices [] (fun _ => 0)
    hinv0 hlt i hi
  rw [hcell]
  exact hc2

theorem c8_witness :
    respDescending [⟨0, 0, 2⟩, ⟨3, 3, 1⟩] [0, 1] ∧
    (List.Sublist (firstPass 16 (16 / (4 * 4)) [⟨0, 0, 2⟩, ⟨3, 3, 1⟩] 4 4 [0, 1] []
      (fun _ => 0)) [0, 1] ∧
    respDescending [⟨0, 0, 2⟩, ⟨3, 3, 1⟩] (firstPass 16 (16 / (4 * 4)) [⟨0, 0, 2⟩, ⟨3, 3, 1⟩]
      4 4 [0, 1] [] (fun _ => 0)) ∧
    (firstPass 16 (16 / (4 * 4)) [⟨0, 0, 2⟩, ⟨3, 3, 1⟩] 4 4 [0, 1] []
      (fun _ => 0)).length ≤ 16 ∧
    (∀ c, countCell [⟨0, 0, 2⟩, ⟨3, 3, 1⟩] 4 4 (firstPass 16 (16 / (4 * 4))
      [⟨0, 0, 2⟩, ⟨3, 3, 1⟩] 4 4 [0, 1] [] (fun _ => 0)) c ≤ 16 / (4 * 4)) ∧
    (∀ c, 16 / (4 * 4) < countCell [⟨0, 0, 2⟩, ⟨3, 3, 1⟩] 4 4
        (selectIndices 16 [⟨0, 0, 2⟩, ⟨3, 3, 1⟩] 4 4 [0, 1]) c →
      (firstPass 16 (16 / (4 * 4)) [⟨0, 0, 2⟩, ⟨3, 3, 1⟩] 4 4 [0, 1] []
        (fun _ => 0)).length < 16 ∧
      (∀ c2, countCell [⟨0, 0, 2⟩, ⟨3, 3, 1⟩] 4 4 (firstPass 16 (16 / (4 * 4))
          [⟨0, 0, 2⟩, ⟨3, 3, 1⟩] 4 4 [0, 1] [] (fun _ => 0)) c2 < 16 / (4 * 4) →
        ∀ i ∈ ([0, 1] : List Nat),
          cellOf 4 4 (([⟨0, 0, 2⟩, ⟨3, 3, 1⟩] : List KeyPt).getD i ⟨0, 0, 0⟩) = c2 →
          i ∈ firstPass 16 (16 / (4 * 4)) [⟨0, 0, 2⟩, ⟨3, 3, 1⟩] 4 4 [0, 1] []
            (fun _ => 0)))) :=
  ⟨by unfold respDescending; decide,
   c8_first_pass_quota 16 [⟨0, 0, 2⟩, ⟨3, 3, 1⟩] 4 4 [0, 1] (by unfold respDescending; decide)⟩
